import Mathlib

/-!
Verification of the block-matching algorithm of `block-matcher` (`src/lib.rs`).

The development embeds the Rust source shallowly:

* `Instruction`, `BlockInfo`, `MatchError` mirror the Rust enums/structs.
* `registerGet` models the `HashMap<&[Instruction], usize>` built from the
  enumerated registry entries followed by `get`: collecting inserts the
  pairs in order and a later insert with an equal key overwrites the earlier
  value, so the lookup returns the index of the last entry equal to the key.
* `findMatchesScan` is the `filter_map` / `collect::<Result<Vec<_>, _>>`
  pass of `find_matches`: it threads the mutable `block_stack` (modelled as a
  list whose head is the top of the `Vec`) and stops at the first error, also
  returning the state of the stack when the pass stops.
* `find_matches` is the public entry point, including the emptiness guard
  and the final unclosed-blocks check, with the error strings rendered the
  way `format!` renders them in the source.
-/

namespace BlockMatcher

/-- VM instruction set (`enum Instruction` in the source). -/
inductive Instruction where
  | Push (value : Nat)
  | Or
  | And
  | Not
  | If
  | Begin
  | End
  deriving DecidableEq, Repr

/-- Per-block output (`struct BlockInfo`): the index of the first block
instruction in the whole program, and the index of this block in the
registry (`None` when the block is not in the registry). -/
structure BlockInfo where
  block_start_idx : Nat
  registry_idx : Option Nat
  deriving DecidableEq, Repr

/-- Error type (`enum MatchError`): either the empty-program rejection or an
invalid-block error carrying a formatted message. -/
inductive MatchError where
  | NoOneBlockFound
  | InvalidBlock (msg : String)
  deriving DecidableEq, Repr

/-- The `Result<Vec<BlockInfo>, MatchError>` returned by `find_matches`. -/
inductive MatchResult where
  | ok (blocks : List BlockInfo)
  | error (err : MatchError)
  deriving DecidableEq, Repr

/-- Rendering of `format!("{:?}", vec)` for a `Vec<usize>`: the debug form
`[p1, p2, ...]` interpolated into the unclosed-blocks message. -/
def vecDebug (positions : List Nat) : String :=
  "[" ++ String.intercalate ", " (positions.map toString) ++ "]"

/-- The message built at the `End`-with-empty-stack error site:
`format!("Attempt to close the non-existent block, at the position: {}", ins_idx)`. -/
def unopenedMsg (ins_idx : Nat) : String :=
  "Attempt to close the non-existent block, at the position: " ++ toString ins_idx

/-- The message built at the unclosed-blocks error site: the fixed prefix of
the source (which reads, with U+0027 written as an escape here, "Next blocks
weren\u0027t be closed. The start blocks positions: ") followed by the debug
rendering of `block_stack`. -/
def unclosedMsg (positions : List Nat) : String :=
  "Next blocks weren\u0027t be closed. The start blocks positions: " ++
    vecDebug positions

/-- The registry lookup: the source builds
`known_blocks.iter().enumerate().map(|(idx, ins)| (*ins, idx)).collect::<HashMap<_, _>>()`
and then calls `register.get(block)`.  Collecting inserts the enumerated
pairs in order, and an insert with a key equal to an existing one overwrites
the earlier value; looking `block` up therefore yields the index of the last
registry entry whose instruction sequence equals `block`, or `none`. -/
def registerGet (known_blocks : List (List Instruction))
    (block : List Instruction) : Option Nat :=
  known_blocks.enum.foldl
    (fun found p => if p.2 = block then some p.1 else found) none

/-- The slice `&program[block_start_idx..=ins_idx]` of the source: the
inclusive subsequence from `s` through `e`. -/
def blockSlice (program : List Instruction) (s e : Nat) : List Instruction :=
  (program.drop s).take (e + 1 - s)

/-- The scanning pass of `find_matches`: the
`program.iter().enumerate().filter_map(...).collect::<Result<Vec<_>, _>>()`
expression, threading `block_stack` (head = top of the `Vec`).  The result
pairs the collected `Result` with the state of `block_stack` when the pass
stops — `collect` short-circuits at the first `Err`, so on an error the
remaining instructions are not consumed. -/
def findMatchesScan (register : List Instruction → Option Nat)
    (program : List Instruction) :
    Nat → List Instruction → List Nat → MatchResult × List Nat
  | _, [], block_stack => (.ok [], block_stack)
  | ins_idx, ins :: rest, block_stack =>
    match ins with
    | .Begin | .If =>
        findMatchesScan register program (ins_idx + 1) rest (ins_idx :: block_stack)
    | .End =>
        match block_stack with
        | block_start_idx :: stack' =>
            match findMatchesScan register program (ins_idx + 1) rest stack' with
            | (.ok infos, st) =>
                (.ok (⟨block_start_idx,
                       register (blockSlice program block_start_idx ins_idx)⟩ :: infos),
                 st)
            | (.error e, st) => (.error e, st)
        | [] => (.error (.InvalidBlock (unopenedMsg ins_idx)), [])
    | _ => findMatchesScan register program (ins_idx + 1) rest block_stack

/-- `find_matches` (`src/lib.rs`, lines 24–82): reject the empty program,
build the registry map, run the scanning pass, and finally fail with the
unclosed-blocks error when `block_stack` is non-empty.  The stack is stored
head-first, so the `Vec` printed by the source is its reverse. -/
def find_matches (known_blocks : List (List Instruction))
    (program : List Instruction) : MatchResult :=
  if program.isEmpty then .error .NoOneBlockFound
  else
    let scanned := findMatchesScan (registerGet known_blocks) program 0 program []
    if scanned.2.isEmpty then scanned.1
    else .error (.InvalidBlock (unclosedMsg scanned.2.reverse))

/-- Number of block-opening instructions (`Begin` or `If`) in a list. -/
def countOpens (l : List Instruction) : Nat :=
  l.countP fun ins =>
    match ins with
    | .Begin => true
    | .If => true
    | _ => false

/-- Number of block-closing instructions (`End`) in a list. -/
def countEnds (l : List Instruction) : Nat :=
  l.countP fun ins =>
    match ins with
    | .End => true
    | _ => false

/-- Follows the spec (§4.2): the stack of pending block-start indices after
scanning `rest` from index `i` with initial stack `st` (head = top); a
block-opening instruction pushes its index, `End` pops, every other
instruction leaves the stack untouched.  The still-open start positions in
open order are the reverse of this stack. -/
def specOpenStack : List Instruction → Nat → List Nat → List Nat
  | [], _, st => st
  | .Begin :: rest, i, st => specOpenStack rest (i + 1) (i :: st)
  | .If :: rest, i, st => specOpenStack rest (i + 1) (i :: st)
  | .End :: rest, i, st => specOpenStack rest (i + 1) st.tail
  | _ :: rest, i, st => specOpenStack rest (i + 1) st

/-- Recursive characterization of the registry lookup: the greatest index
`k ≥ n` (counting the head of `l` as index `n`) whose entry equals `block`. -/
def lastEqIdxFrom (block : List Instruction) :
    List (List Instruction) → Nat → Option Nat
  | [], _ => none
  | e :: rest, n =>
    match lastEqIdxFrom block rest (n + 1) with
    | some k => some k
    | none => if e = block then some n else none

/-- The instruction at position `s` of the program opens a block. -/
def openerAt (program : List Instruction) (s : Nat) : Prop :=
  program[s]? = some Instruction.Begin ∨ program[s]? = some Instruction.If

/-- The registry of the tests in the source (`default_register`). -/
def default_register : List (List Instruction) :=
  [[.Begin, .Push 1, .End],
   [.If, .Push 2, .Not, .Push 3, .End],
   [.If, .Push 2, .Push 3, .End],
   [.If, .End]]

/-- The program of the source's `correct_program` test. -/
def correct_program : List Instruction :=
  [.Begin, .If, .Push 2, .Push 3, .End, .If, .If, .End, .Push 1, .End, .End]

/-- Small inputs used by the witnesses below. -/
def single_block_register : List (List Instruction) := [[.If, .End]]

def single_block_program : List Instruction := [.If, .End]

def dup_register : List (List Instruction) := [[.Begin, .End], [.Begin, .End]]

def dup_program : List Instruction := [.Begin, .End]

def nested_program : List Instruction := [.Begin, .If, .End, .End]

lemma foldl_enumFrom_eq (block : List Instruction) :
    ∀ (l : List (List Instruction)) (n : Nat) (acc : Option Nat),
      (List.enumFrom n l).foldl
          (fun found p => if p.2 = block then some p.1 else found) acc =
        (match lastEqIdxFrom block l n with
         | some k => some k
         | none => acc) := by
  intro l
  induction l with
  | nil => intro n acc; simp [lastEqIdxFrom]
  | cons e rest ih =>
    intro n acc
    simp only [List.enumFrom, List.foldl_cons]
    rw [ih]
    cases h : lastEqIdxFrom block rest (n + 1) with
    | some k => simp [lastEqIdxFrom, h]
    | none =>
      by_cases he : e = block <;> simp [lastEqIdxFrom, h, he]

lemma registerGet_eq_lastEqIdx (known : List (List Instruction))
    (block : List Instruction) :
    registerGet known block = lastEqIdxFrom block known 0 := by
  unfold registerGet
  rw [List.enum_eq_enumFrom, foldl_enumFrom_eq]
  cases lastEqIdxFrom block known 0 <;> rfl

lemma lastEqIdxFrom_isSome (block : List Instruction) :
    ∀ (l : List (List Instruction)) (n : Nat),
      (lastEqIdxFrom block l n).isSome = true ↔ block ∈ l := by
  intro l
  induction l with
  | nil => intro n; simp [lastEqIdxFrom]
  | cons e rest ih =>
    intro n
    rw [List.mem_cons]
    cases h : lastEqIdxFrom block rest (n + 1) with
    | some k =>
      have hmem : block ∈ rest := (ih (n + 1)).mp (by rw [h]; rfl)
      simp [lastEqIdxFrom, h, hmem]
    | none =>
      have hnot : ¬ block ∈ rest := by
        intro hmem
        have h2 := (ih (n + 1)).mpr hmem
        rw [h] at h2
        exact absurd h2 (by simp)
      by_cases he : e = block
      · simp [lastEqIdxFrom, h, he]
      · have hne : ¬ block = e := fun hb => he hb.symm
        simp [lastEqIdxFrom, h, he, hne, hnot]

lemma lastEqIdxFrom_get (block : List Instruction) :
    ∀ (l : List (List Instruction)) (n k : Nat),
      lastEqIdxFrom block l n = some k → n ≤ k ∧ l[k - n]? = some block := by
  intro l
  induction l with
  | nil => intro n k h; simp [lastEqIdxFrom] at h
  | cons e rest ih =>
    intro n k h
    cases h2 : lastEqIdxFrom block rest (n + 1) with
    | some k' =>
      rw [lastEqIdxFrom, h2] at h
      have hkk : k = k' := by
        injection h with h3
        exact h3.symm
      subst hkk
      obtain ⟨hk, hget⟩ := ih (n + 1) k h2
      refine ⟨by omega, ?_⟩
      have hpos : k - n = (k - (n + 1)) + 1 := by omega
      rw [hpos, List.getElem?_cons_succ]
      exact hget
    | none =>
      rw [lastEqIdxFrom, h2] at h
      by_cases he : e = block
      · rw [if_pos he] at h
        have hnk : k = n := by
          injection h with h3
          exact h3.symm
        subst hnk
        simp [he]
      · rw [if_neg he] at h
        exact absurd h (by simp)

lemma lastEqIdxFrom_last (block : List Instruction) :
    ∀ (l : List (List Instruction)) (n j : Nat),
      l[j]? = some block →
      ∃ k, lastEqIdxFrom block l n = some k ∧ n + j ≤ k := by
  intro l
  induction l with
  | nil => intro n j h; simp at h
  | cons e rest ih =>
    intro n j h
    cases j with
    | zero =>
      simp only [List.getElem?_cons_zero] at h
      have heb : e = block := by injection h
      cases h2 : lastEqIdxFrom block rest (n + 1) with
      | some k' =>
        refine ⟨k', by rw [lastEqIdxFrom, h2], ?_⟩
        obtain ⟨hk, _⟩ := lastEqIdxFrom_get block rest (n + 1) k' h2
        omega
      | none => exact ⟨n, by rw [lastEqIdxFrom, h2]; simp [heb], by omega⟩
    | succ j' =>
      rw [List.getElem?_cons_succ] at h
      obtain ⟨k', hk', hle⟩ := ih (n + 1) j' h
      refine ⟨k', by rw [lastEqIdxFrom, hk'], by omega⟩

/-- The lookup succeeds exactly when some registry entry equals `block`
(whole-shape equality, no partial comparison). -/
lemma registerGet_isSome_iff (known : List (List Instruction))
    (block : List Instruction) :
    (registerGet known block).isSome = true ↔ block ∈ known := by
  rw [registerGet_eq_lastEqIdx]
  exact lastEqIdxFrom_isSome block known 0

/-- A successful lookup returns an index whose registry entry equals `block`. -/
lemma registerGet_get (known : List (List Instruction))
    (block : List Instruction) (k : Nat) (h : registerGet known block = some k) :
    known[k]? = some block := by
  rw [registerGet_eq_lastEqIdx] at h
  have h2 := lastEqIdxFrom_get block known 0 k h
  simpa using h2.2

/-- The lookup returns an index at least as large as that of any registry
entry equal to `block` (a later duplicate insert overwrites an earlier one). -/
lemma registerGet_last (known : List (List Instruction))
    (block : List Instruction) (j : Nat) (h : known[j]? = some block) :
    ∃ k, registerGet known block = some k ∧ j ≤ k ∧ known[k]? = some block := by
  rw [registerGet_eq_lastEqIdx]
  obtain ⟨k, hk, hle⟩ := lastEqIdxFrom_last block known 0 j h
  refine ⟨k, hk, by omega, ?_⟩
  have h2 := lastEqIdxFrom_get block known 0 k hk
  simpa using h2.2

/-- Recover the instruction at index `i` and the remaining suffix from a
`drop` equation. -/
lemma drop_cons_inv {program rest : List Instruction} {ins : Instruction}
    {i : Nat} (h : program.drop i = ins :: rest) :
    program[i]? = some ins ∧ program.drop (i + 1) = rest := by
  constructor
  · have h2 := List.getElem?_drop program i 0
    rw [h] at h2
    simpa using h2.symm
  · have h2 : (program.drop i).drop 1 = program.drop (i + 1) := by
      rw [List.drop_drop]
    rw [h] at h2
    simpa using h2.symm

/-- Every error produced by the scanning pass is an `InvalidBlock`; the
empty-program error can only come from the guard before the scan. -/
lemma scan_error_isInvalid (register : List Instruction → Option Nat)
    (program : List Instruction) :
    ∀ (rest : List Instruction) (i : Nat) (stack : List Nat) (e : MatchError)
      (st' : List Nat),
      findMatchesScan register program i rest stack = (.error e, st') →
      ∃ msg, e = .InvalidBlock msg := by
  intro rest
  induction rest with
  | nil =>
    intro i stack e st' h
    simp [findMatchesScan] at h
  | cons ins rest ih =>
    intro i stack e st' h
    cases ins with
    | Push v => exact ih (i + 1) stack e st' h
    | Or => exact ih (i + 1) stack e st' h
    | And => exact ih (i + 1) stack e st' h
    | Not => exact ih (i + 1) stack e st' h
    | If => exact ih (i + 1) (i :: stack) e st' h
    | Begin => exact ih (i + 1) (i :: stack) e st' h
    | End =>
      cases stack with
      | nil =>
        simp only [findMatchesScan, Prod.mk.injEq] at h
        exact ⟨unopenedMsg i, by
          obtain ⟨h1, _⟩ := h
          injection h1 with h3
          exact h3.symm⟩
      | cons s stack' =>
        rcases hr : findMatchesScan register program (i + 1) rest stack'
          with ⟨r, st2⟩
        simp only [findMatchesScan, hr] at h
        cases r with
        | ok infos => simp at h
        | error e2 =>
          obtain ⟨h1, _⟩ : MatchResult.error e2 = MatchResult.error e ∧ st2 = st' := by
            simpa using h
          have he : e2 = e := by injection h1
          exact he ▸ ih (i + 1) stack' e2 st2 hr

/-- A pass over instructions with no structural role (`Push`, `Or`, `And`,
`Not`) produces nothing and leaves the stack untouched. -/
lemma scan_skip_trivial (register : List Instruction → Option Nat)
    (program : List Instruction) :
    ∀ (rest : List Instruction) (i : Nat) (stack : List Nat),
      (∀ ins ∈ rest, ins ≠ Instruction.Begin ∧ ins ≠ Instruction.If ∧
        ins ≠ Instruction.End) →
      findMatchesScan register program i rest stack = (.ok [], stack) := by
  intro rest
  induction rest with
  | nil => intro i stack _; simp [findMatchesScan]
  | cons ins rest ih =>
    intro i stack hno
    obtain ⟨hins, hrest⟩ : (ins ≠ Instruction.Begin ∧ ins ≠ Instruction.If ∧
        ins ≠ Instruction.End) ∧ ∀ i2 ∈ rest, i2 ≠ Instruction.Begin ∧
        i2 ≠ Instruction.If ∧ i2 ≠ Instruction.End := by
      constructor
      · exact hno ins (List.mem_cons_self ins rest)
      · exact fun i2 hi2 => hno i2 (List.mem_cons_of_mem ins hi2)
    cases ins with
    | Push v => simpa [findMatchesScan] using ih (i + 1) stack hrest
    | Or => simpa [findMatchesScan] using ih (i + 1) stack hrest
    | And => simpa [findMatchesScan] using ih (i + 1) stack hrest
    | Not => simpa [findMatchesScan] using ih (i + 1) stack hrest
    | If => exact absurd rfl hins.2.1
    | Begin => exact absurd rfl hins.1
    | End => exact absurd rfl hins.2.2

/-- Inversion of a successful `find_matches` run: the program is non-empty,
and the scanning pass succeeded with an empty final stack. -/
lemma find_matches_ok_inv {known : List (List Instruction)}
    {program : List Instruction} {infos : List BlockInfo}
    (h : find_matches known program = .ok infos) :
    program ≠ [] ∧
    findMatchesScan (registerGet known) program 0 program [] = (.ok infos, []) := by
  unfold find_matches at h
  by_cases hemp : program.isEmpty
  · rw [if_pos hemp] at h
    exact absurd h (by simp)
  · rw [if_neg hemp] at h
    refine ⟨by simpa [List.isEmpty_iff] using hemp, ?_⟩
    rcases hr : findMatchesScan (registerGet known) program 0 program []
      with ⟨r, st⟩
    rw [hr] at h
    by_cases hst : st.isEmpty
    · rw [if_pos hst] at h
      simp only at h
      rw [h, List.isEmpty_iff.mp hst]
    · rw [if_neg hst] at h
      exact absurd h (by simp)

/-- Master characterization of a successful scanning pass: there is a
strictly increasing list `ends` of `End` positions, one per produced
`BlockInfo` and in the same order, such that the `k`-th `BlockInfo` starts
at a block-opening instruction strictly before `ends[k]` and carries the
registry lookup of the inclusive slice from its start through `ends[k]`. -/
lemma scan_ok_strong (register : List Instruction → Option Nat)
    (program : List Instruction) :
    ∀ (rest : List Instruction) (i : Nat) (stack : List Nat)
      (infos : List BlockInfo) (st' : List Nat),
      rest = program.drop i →
      (∀ s ∈ stack, s < i ∧ openerAt program s) →
      findMatchesScan register program i rest stack = (.ok infos, st') →
      ∃ ends : List Nat,
        ends.length = infos.length ∧
        List.Chain' (fun a b => a < b) ends ∧
        (∀ e ∈ ends, i ≤ e) ∧
        ∀ (k : Nat) (hk : k < infos.length) (he : k < ends.length),
          program[ends[k]]? = some Instruction.End ∧
          infos[k].block_start_idx < ends[k] ∧
          openerAt program infos[k].block_start_idx ∧
          infos[k].registry_idx =
            register (blockSlice program infos[k].block_start_idx ends[k]) := by
  intro rest
  induction rest with
  | nil =>
    intro i stack infos st' _ _ h
    obtain ⟨h1, _⟩ : MatchResult.ok [] = MatchResult.ok infos ∧ stack = st' := by
      simpa [findMatchesScan] using h
    have hinfos : infos = [] := by
      injection h1 with h2
      exact h2.symm
    subst hinfos
    exact ⟨[], by simp, by simp, by simp, fun k hk => by simp at hk⟩
  | cons ins rest ih =>
    intro i stack infos st' hdrop hinv h
    obtain ⟨hhead, htail⟩ := drop_cons_inv hdrop.symm
    cases ins with
    | Push v =>
      obtain ⟨ends, h1, h2, h3, h4⟩ :=
        ih (i + 1) stack infos st' htail.symm
          (fun s hs => ⟨Nat.lt_succ_of_lt (hinv s hs).1, (hinv s hs).2⟩) h
      exact ⟨ends, h1, h2, fun e he => Nat.le_of_succ_le (h3 e he), h4⟩
    | Or =>
      obtain ⟨ends, h1, h2, h3, h4⟩ :=
        ih (i + 1) stack infos st' htail.symm
          (fun s hs => ⟨Nat.lt_succ_of_lt (hinv s hs).1, (hinv s hs).2⟩) h
      exact ⟨ends, h1, h2, fun e he => Nat.le_of_succ_le (h3 e he), h4⟩
    | And =>
      obtain ⟨ends, h1, h2, h3, h4⟩ :=
        ih (i + 1) stack infos st' htail.symm
          (fun s hs => ⟨Nat.lt_succ_of_lt (hinv s hs).1, (hinv s hs).2⟩) h
      exact ⟨ends, h1, h2, fun e he => Nat.le_of_succ_le (h3 e he), h4⟩
    | Not =>
      obtain ⟨ends, h1, h2, h3, h4⟩ :=
        ih (i + 1) stack infos st' htail.symm
          (fun s hs => ⟨Nat.lt_succ_of_lt (hinv s hs).1, (hinv s hs).2⟩) h
      exact ⟨ends, h1, h2, fun e he => Nat.le_of_succ_le (h3 e he), h4⟩
    | Begin =>
      have hinv' : ∀ s ∈ i :: stack, s < i + 1 ∧ openerAt program s := by
        intro s hs
        rcases List.mem_cons.mp hs with rfl | hs2
        · exact ⟨Nat.lt_succ_self s, Or.inl hhead⟩
        · exact ⟨Nat.lt_succ_of_lt (hinv s hs2).1, (hinv s hs2).2⟩
      obtain ⟨ends, h1, h2, h3, h4⟩ :=
        ih (i + 1) (i :: stack) infos st' htail.symm hinv' h
      exact ⟨ends, h1, h2, fun e he => Nat.le_of_succ_le (h3 e he), h4⟩
    | If =>
      have hinv' : ∀ s ∈ i :: stack, s < i + 1 ∧ openerAt program s := by
        intro s hs
        rcases List.mem_cons.mp hs with rfl | hs2
        · exact ⟨Nat.lt_succ_self s, Or.inr hhead⟩
        · exact ⟨Nat.lt_succ_of_lt (hinv s hs2).1, (hinv s hs2).2⟩
      obtain ⟨ends, h1, h2, h3, h4⟩ :=
        ih (i + 1) (i :: stack) infos st' htail.symm hinv' h
      exact ⟨ends, h1, h2, fun e he => Nat.le_of_succ_le (h3 e he), h4⟩
    | End =>
      cases stack with
      | nil => simp [findMatchesScan] at h
      | cons s stack' =>
        rcases hr : findMatchesScan register program (i + 1) rest stack'
          with ⟨r, st2⟩
        simp only [findMatchesScan, hr] at h
        cases r with
        | error e2 => simp at h
        | ok infos' =>
          obtain ⟨h1, hst⟩ :
              MatchResult.ok
                (⟨s, register (blockSlice program s i)⟩ :: infos') =
                MatchResult.ok infos ∧ st2 = st' := by
            simpa using h
          have hinfos : infos =
              ⟨s, register (blockSlice program s i)⟩ :: infos' := by
            injection h1 with h2
            exact h2.symm
          subst hinfos
          obtain ⟨hs_lt, hs_open⟩ := hinv s (List.mem_cons_self s stack')
          obtain ⟨ends', hl1, hl2, hl3, hl4⟩ :=
            ih (i + 1) stack' infos' st2 htail.symm
              (fun s2 hs2 =>
                ⟨Nat.lt_succ_of_lt (hinv s2 (List.mem_cons_of_mem s hs2)).1,
                 (hinv s2 (List.mem_cons_of_mem s hs2)).2⟩) hr
          refine ⟨i :: ends', by simp [hl1], ?_, ?_, ?_⟩
          · refine List.chain'_cons'.mpr ⟨?_, hl2⟩
            intro y hy
            exact Nat.lt_of_succ_le (hl3 y (List.mem_of_mem_head? hy))
          · intro e he
            rcases List.mem_cons.mp he with rfl | he2
            · exact Nat.le_refl e
            · exact Nat.le_of_succ_le (hl3 e he2)
          · intro k hk he
            cases k with
            | zero => exact ⟨hhead, hs_lt, hs_open, rfl⟩
            | succ k' =>
              simp only [List.getElem_cons_succ]
              exact hl4 k' (by simpa using hk) (by simpa using he)
/-- When no prefix of `rest` closes more blocks than it can reach (counting
the blocks already open on `stack`), the scanning pass succeeds, its final
stack is the spec's pending-block stack, and it produces exactly one
`BlockInfo` per `End`. -/
lemma scan_ok_of_balanced (register : List Instruction → Option Nat)
    (program : List Instruction) :
    ∀ (rest : List Instruction) (i : Nat) (stack : List Nat),
      (∀ n, n ≤ rest.length →
        countEnds (rest.take n) ≤ stack.length + countOpens (rest.take n)) →
      ∃ infos,
        findMatchesScan register program i rest stack =
          (.ok infos, specOpenStack rest i stack) ∧
        infos.length = countEnds rest := by
  intro rest
  induction rest with
  | nil =>
    intro i stack _
    exact ⟨[], by simp [findMatchesScan, specOpenStack], by simp [countEnds]⟩
  | cons ins rest ih =>
    intro i stack hbal
    cases ins with
    | Push v =>
      have hbal' : ∀ n, n ≤ rest.length →
          countEnds (rest.take n) ≤ stack.length + countOpens (rest.take n) := by
        intro n hn
        have h2 := hbal (n + 1) (by simp [List.length_cons]; omega)
        simpa [List.take_succ_cons, countEnds, countOpens, List.countP_cons]
          using h2
      obtain ⟨infos, hscan, hlen⟩ := ih (i + 1) stack hbal'
      exact ⟨infos, by simp [findMatchesScan, specOpenStack, hscan],
        by simpa [countEnds, List.countP_cons] using hlen⟩
    | Or =>
      have hbal' : ∀ n, n ≤ rest.length →
          countEnds (rest.take n) ≤ stack.length + countOpens (rest.take n) := by
        intro n hn
        have h2 := hbal (n + 1) (by simp [List.length_cons]; omega)
        simpa [List.take_succ_cons, countEnds, countOpens, List.countP_cons]
          using h2
      obtain ⟨infos, hscan, hlen⟩ := ih (i + 1) stack hbal'
      exact ⟨infos, by simp [findMatchesScan, specOpenStack, hscan],
        by simpa [countEnds, List.countP_cons] using hlen⟩
    | And =>
      have hbal' : ∀ n, n ≤ rest.length →
          countEnds (rest.take n) ≤ stack.length + countOpens (rest.take n) := by
        intro n hn
        have h2 := hbal (n + 1) (by simp [List.length_cons]; omega)
        simpa [List.take_succ_cons, countEnds, countOpens, List.countP_cons]
          using h2
      obtain ⟨infos, hscan, hlen⟩ := ih (i + 1) stack hbal'
      exact ⟨infos, by simp [findMatchesScan, specOpenStack, hscan],
        by simpa [countEnds, List.countP_cons] using hlen⟩
    | Not =>
      have hbal' : ∀ n, n ≤ rest.length →
          countEnds (rest.take n) ≤ stack.length + countOpens (rest.take n) := by
        intro n hn
        have h2 := hbal (n + 1) (by simp [List.length_cons]; omega)
        simpa [List.take_succ_cons, countEnds, countOpens, List.countP_cons]
          using h2
      obtain ⟨infos, hscan, hlen⟩ := ih (i + 1) stack hbal'
      exact ⟨infos, by simp [findMatchesScan, specOpenStack, hscan],
        by simpa [countEnds, List.countP_cons] using hlen⟩
    | Begin =>
      have hbal' : ∀ n, n ≤ rest.length →
          countEnds (rest.take n) ≤ (i :: stack).length + countOpens (rest.take n) := by
        intro n hn
        have h2 := hbal (n + 1) (by simp [List.length_cons]; omega)
        simp only [List.take_succ_cons, countEnds, countOpens, List.countP_cons, if_true, if_false, Bool.false_eq_true] at h2 ⊢
        simp only [List.length_cons]
        omega
      obtain ⟨infos, hscan, hlen⟩ := ih (i + 1) (i :: stack) hbal'
      exact ⟨infos, by simp [findMatchesScan, specOpenStack, hscan],
        by simpa [countEnds, List.countP_cons] using hlen⟩
    | If =>
      have hbal' : ∀ n, n ≤ rest.length →
          countEnds (rest.take n) ≤ (i :: stack).length + countOpens (rest.take n) := by
        intro n hn
        have h2 := hbal (n + 1) (by simp [List.length_cons]; omega)
        simp only [List.take_succ_cons, countEnds, countOpens, List.countP_cons, if_true, if_false, Bool.false_eq_true] at h2 ⊢
        simp only [List.length_cons]
        omega
      obtain ⟨infos, hscan, hlen⟩ := ih (i + 1) (i :: stack) hbal'
      exact ⟨infos, by simp [findMatchesScan, specOpenStack, hscan],
        by simpa [countEnds, List.countP_cons] using hlen⟩
    | End =>
      have hpos : 1 ≤ stack.length := by
        have h2 := hbal 1 (by simp [List.length_cons])
        simpa [countEnds, countOpens, List.countP_cons] using h2
      cases stack with
      | nil => simp at hpos
      | cons s stack2 =>
        have hbal' : ∀ n, n ≤ rest.length →
            countEnds (rest.take n) ≤ stack2.length + countOpens (rest.take n) := by
          intro n hn
          have h2 := hbal (n + 1) (by simp [List.length_cons]; omega)
          simp only [List.take_succ_cons, countEnds, countOpens,
            List.countP_cons, List.length_cons, if_true, if_false,
            Bool.false_eq_true] at h2 ⊢
          omega
        obtain ⟨infos, hscan, hlen⟩ := ih (i + 1) stack2 hbal'
        refine ⟨⟨s, register (blockSlice program s i)⟩ :: infos, ?_, ?_⟩
        · simp [findMatchesScan, specOpenStack, hscan]
        · simp only [countEnds, List.countP_cons, List.length_cons, if_true,
            if_false, Bool.false_eq_true] at hlen ⊢
          omega

/-- Under the same balance condition the length of the pending-block stack
is the number of opens minus the number of closes. -/
lemma specOpenStack_length :
    ∀ (rest : List Instruction) (i : Nat) (stack : List Nat),
      (∀ n, n ≤ rest.length →
        countEnds (rest.take n) ≤ stack.length + countOpens (rest.take n)) →
      (specOpenStack rest i stack).length + countEnds rest =
        stack.length + countOpens rest := by
  intro rest
  induction rest with
  | nil => intro i stack _; simp [specOpenStack, countEnds, countOpens]
  | cons ins rest ih =>
    intro i stack hbal
    cases ins with
    | Push v =>
      have h2 := ih (i + 1) stack (fun n hn => by
        have h3 := hbal (n + 1) (by simp [List.length_cons]; omega)
        simpa [List.take_succ_cons, countEnds, countOpens, List.countP_cons]
          using h3)
      simp only [specOpenStack, countEnds, countOpens, List.countP_cons, if_true, if_false, Bool.false_eq_true] at h2 ⊢
      omega
    | Or =>
      have h2 := ih (i + 1) stack (fun n hn => by
        have h3 := hbal (n + 1) (by simp [List.length_cons]; omega)
        simpa [List.take_succ_cons, countEnds, countOpens, List.countP_cons]
          using h3)
      simp only [specOpenStack, countEnds, countOpens, List.countP_cons, if_true, if_false, Bool.false_eq_true] at h2 ⊢
      omega
    | And =>
      have h2 := ih (i + 1) stack (fun n hn => by
        have h3 := hbal (n + 1) (by simp [List.length_cons]; omega)
        simpa [List.take_succ_cons, countEnds, countOpens, List.countP_cons]
          using h3)
      simp only [specOpenStack, countEnds, countOpens, List.countP_cons, if_true, if_false, Bool.false_eq_true] at h2 ⊢
      omega
    | Not =>
      have h2 := ih (i + 1) stack (fun n hn => by
        have h3 := hbal (n + 1) (by simp [List.length_cons]; omega)
        simpa [List.take_succ_cons, countEnds, countOpens, List.countP_cons]
          using h3)
      simp only [specOpenStack, countEnds, countOpens, List.countP_cons, if_true, if_false, Bool.false_eq_true] at h2 ⊢
      omega
    | Begin =>
      have h2 := ih (i + 1) (i :: stack) (fun n hn => by
        have h3 := hbal (n + 1) (by simp [List.length_cons]; omega)
        simp only [List.take_succ_cons, countEnds, countOpens,
          List.countP_cons, List.length_cons, if_true, if_false,
          Bool.false_eq_true] at h3 ⊢
        omega)
      simp only [specOpenStack, countEnds, countOpens, List.countP_cons,
        List.length_cons, if_true, if_false, Bool.false_eq_true] at h2 ⊢
      omega
    | If =>
      have h2 := ih (i + 1) (i :: stack) (fun n hn => by
        have h3 := hbal (n + 1) (by simp [List.length_cons]; omega)
        simp only [List.take_succ_cons, countEnds, countOpens,
          List.countP_cons, List.length_cons, if_true, if_false,
          Bool.false_eq_true] at h3 ⊢
        omega)
      simp only [specOpenStack, countEnds, countOpens, List.countP_cons,
        List.length_cons, if_true, if_false, Bool.false_eq_true] at h2 ⊢
      omega
    | End =>
      have hpos : 1 ≤ stack.length := by
        have h2 := hbal 1 (by simp [List.length_cons])
        simpa [countEnds, countOpens, List.countP_cons] using h2
      cases stack with
      | nil => simp at hpos
      | cons s stack2 =>
        have h2 := ih (i + 1) stack2 (fun n hn => by
          have h3 := hbal (n + 1) (by simp [List.length_cons]; omega)
          simp only [List.take_succ_cons, countEnds, countOpens,
            List.countP_cons, List.length_cons, if_true, if_false,
            Bool.false_eq_true] at h3 ⊢
          omega)
        simp only [specOpenStack, List.tail_cons, countEnds, countOpens,
          List.countP_cons, List.length_cons, if_true, if_false,
          Bool.false_eq_true] at h2 ⊢
        omega

/-- Every position on the pending-block stack holds a block-opening
instruction. -/
lemma specOpenStack_opener (program : List Instruction) :
    ∀ (rest : List Instruction) (i : Nat) (stack : List Nat),
      rest = program.drop i →
      (∀ s ∈ stack, openerAt program s) →
      ∀ s ∈ specOpenStack rest i stack, openerAt program s := by
  intro rest
  induction rest with
  | nil => intro i stack _ hstack; simpa [specOpenStack] using hstack
  | cons ins rest ih =>
    intro i stack hdrop hstack
    obtain ⟨hhead, htail⟩ := drop_cons_inv hdrop.symm
    cases ins with
    | Push v => exact ih (i + 1) stack htail.symm hstack
    | Or => exact ih (i + 1) stack htail.symm hstack
    | And => exact ih (i + 1) stack htail.symm hstack
    | Not => exact ih (i + 1) stack htail.symm hstack
    | Begin =>
      refine ih (i + 1) (i :: stack) htail.symm ?_
      intro s hs
      rcases List.mem_cons.mp hs with rfl | hs2
      · exact Or.inl hhead
      · exact hstack s hs2
    | If =>
      refine ih (i + 1) (i :: stack) htail.symm ?_
      intro s hs
      rcases List.mem_cons.mp hs with rfl | hs2
      · exact Or.inr hhead
      · exact hstack s hs2
    | End =>
      refine ih (i + 1) stack.tail htail.symm ?_
      intro s hs
      exact hstack s (List.mem_of_mem_tail hs)

/-- The pending-block stack is strictly decreasing from its top, i.e. its
reverse lists the still-open start positions in increasing (push) order. -/
lemma specOpenStack_sorted :
    ∀ (rest : List Instruction) (i : Nat) (stack : List Nat),
      (∀ s ∈ stack, s < i) →
      List.Chain' (fun a b => a > b) stack →
      List.Chain' (fun a b => a > b) (specOpenStack rest i stack) := by
  intro rest
  induction rest with
  | nil => intro i stack _ hchain; simpa [specOpenStack] using hchain
  | cons ins rest ih =>
    intro i stack hlt hchain
    have hlt' : ∀ s ∈ stack, s < i + 1 := fun s hs => Nat.lt_succ_of_lt (hlt s hs)
    cases ins with
    | Push v => exact ih (i + 1) stack hlt' hchain
    | Or => exact ih (i + 1) stack hlt' hchain
    | And => exact ih (i + 1) stack hlt' hchain
    | Not => exact ih (i + 1) stack hlt' hchain
    | Begin =>
      refine ih (i + 1) (i :: stack) ?_ ?_
      · intro s hs
        rcases List.mem_cons.mp hs with rfl | hs2
        · exact Nat.lt_succ_self s
        · exact Nat.lt_succ_of_lt (hlt s hs2)
      · exact List.chain'_cons'.mpr
          ⟨fun y hy => hlt y (List.mem_of_mem_head? hy), hchain⟩
    | If =>
      refine ih (i + 1) (i :: stack) ?_ ?_
      · intro s hs
        rcases List.mem_cons.mp hs with rfl | hs2
        · exact Nat.lt_succ_self s
        · exact Nat.lt_succ_of_lt (hlt s hs2)
      · exact List.chain'_cons'.mpr
          ⟨fun y hy => hlt y (List.mem_of_mem_head? hy), hchain⟩
    | End =>
      refine ih (i + 1) stack.tail ?_ hchain.tail
      intro s hs
      exact Nat.lt_succ_of_lt (hlt s (List.mem_of_mem_tail hs))

/-- Claim C7: in every successful run, every reported block start position
holds a `Begin` or an `If`, and the `End` that closed the block (the one
whose inclusive slice from the start was looked up in the registry) lies
strictly after it. -/
theorem C7_start_is_opener (known : List (List Instruction))
    (program : List Instruction) (infos : List BlockInfo)
    (h : find_matches known program = .ok infos) :
    ∀ info ∈ infos,
      (program[info.block_start_idx]? = some Instruction.Begin ∨
        program[info.block_start_idx]? = some Instruction.If) ∧
      ∃ e, info.block_start_idx < e ∧ program[e]? = some Instruction.End ∧
        info.registry_idx =
          registerGet known (blockSlice program info.block_start_idx e) := by
  intro info hmem
  obtain ⟨-, hscan⟩ := find_matches_ok_inv h
  obtain ⟨ends, hlen, -, -, h4⟩ :=
    scan_ok_strong (registerGet known) program program 0 [] infos []
      (by simp) (by simp) hscan
  obtain ⟨⟨k, hk⟩, rfl⟩ := List.mem_iff_get.mp hmem
  have he : k < ends.length := by omega
  obtain ⟨hEnd, hlt, hop, hreg⟩ := h4 k hk he
  rw [List.get_eq_getElem]
  exact ⟨hop, ends[k], hlt, hEnd, hreg⟩

theorem C7_start_is_opener_witness :
    (single_block_program[(0 : Nat)]? = some Instruction.Begin ∨
      single_block_program[(0 : Nat)]? = some Instruction.If) ∧
    ∃ e, 0 < e ∧
      single_block_program[e]? = some Instruction.End ∧
      (some 0 : Option Nat) =
        registerGet single_block_register
          (blockSlice single_block_program 0 e) :=
  C7_start_is_opener single_block_register single_block_program
    [⟨0, some 0⟩] (by decide) ⟨0, some 0⟩ (by decide)

/-- Claim C1 counterexample: with a registry containing both
`[Begin, Push 1, End]` and `[Begin, Push 2, End]`, the block of the program
`[Begin, Push 1, End]` is matched, and changing the single instruction at
index 1 — only a `Push` payload value, strictly inside the block — yields a
block that is still matched (to the other entry), so the change does not
flip the match to a non-match. -/
theorem C1_counterexample :
    find_matches [[.Begin, .Push 1, .End], [.Begin, .Push 2, .End]]
        [.Begin, .Push 1, .End] = .ok [⟨0, some 0⟩] ∧
    ([.Begin, .Push 1, .End] : List Instruction).set 1 (.Push 2) =
      [.Begin, .Push 2, .End] ∧
    find_matches [[.Begin, .Push 1, .End], [.Begin, .Push 2, .End]]
        [.Begin, .Push 2, .End] = .ok [⟨0, some 1⟩] := by
  decide

/-- Claim C1 as amended: a block closed during a successful scan is reported
as matched exactly when some registry entry is elementwise equal to the
block's inclusive slice from its opening instruction through its closing
`End` (no prefix, suffix or partial comparison), and therefore changing any
single instruction inside the block flips a match to a non-match whenever
the altered sequence is not itself elementwise equal to a registry entry. -/
theorem C1_exact_match (known : List (List Instruction))
    (program : List Instruction) (infos : List BlockInfo)
    (h : find_matches known program = .ok infos) :
    (∀ shape : List Instruction,
      (registerGet known shape).isSome = true ↔ shape ∈ known) ∧
    ∀ info ∈ infos, ∃ e,
      program[e]? = some Instruction.End ∧ info.block_start_idx < e ∧
      info.registry_idx =
        registerGet known (blockSlice program info.block_start_idx e) ∧
      (info.registry_idx.isSome = true ↔
        blockSlice program info.block_start_idx e ∈ known) := by
  refine ⟨fun shape => registerGet_isSome_iff known shape, ?_⟩
  intro info hmem
  obtain ⟨-, hscan⟩ := find_matches_ok_inv h
  obtain ⟨ends, hlen, -, -, h4⟩ :=
    scan_ok_strong (registerGet known) program program 0 [] infos []
      (by simp) (by simp) hscan
  obtain ⟨⟨k, hk⟩, rfl⟩ := List.mem_iff_get.mp hmem
  have he : k < ends.length := by omega
  obtain ⟨hEnd, hlt, -, hreg⟩ := h4 k hk he
  rw [List.get_eq_getElem]
  refine ⟨ends[k], hEnd, hlt, hreg, ?_⟩
  rw [hreg]
  exact registerGet_isSome_iff known _

theorem C1_exact_match_witness :
    (∀ shape : List Instruction,
      (registerGet single_block_register shape).isSome = true ↔
        shape ∈ single_block_register) ∧
    ∀ info ∈ [(⟨0, some 0⟩ : BlockInfo)], ∃ e,
      single_block_program[e]? = some Instruction.End ∧
      info.block_start_idx < e ∧
      info.registry_idx =
        registerGet single_block_register
          (blockSlice single_block_program info.block_start_idx e) ∧
      (info.registry_idx.isSome = true ↔
        blockSlice single_block_program info.block_start_idx e ∈
          single_block_register) :=
  C1_exact_match single_block_register single_block_program
    [⟨0, some 0⟩] (by decide)

/-- Claim C2: in every successful run the `BlockInfo` entries appear in the
order of the `End` instructions that closed them — there is a strictly
increasing list of closing-`End` positions aligned with the result — and an
entry whose closing `End` comes earlier appears earlier; in particular, for
nested blocks (whose closing `End` is earlier than that of every enclosing
block) the inner block's entry precedes the outer one's. -/
theorem C2_end_encounter_order (known : List (List Instruction))
    (program : List Instruction) (infos : List BlockInfo)
    (h : find_matches known program = .ok infos) :
    ∃ ends : List Nat,
      ends.length = infos.length ∧
      List.Chain' (fun a b => a < b) ends ∧
      (∀ (k : Nat) (hk : k < infos.length) (he : k < ends.length),
        program[ends[k]]? = some Instruction.End ∧
        infos[k].block_start_idx < ends[k] ∧
        infos[k].registry_idx =
          registerGet known (blockSlice program infos[k].block_start_idx ends[k])) ∧
      ∀ (k1 k2 : Nat) (h1 : k1 < ends.length) (h2 : k2 < ends.length),
        ends[k1] < ends[k2] → k1 < k2 := by
  obtain ⟨-, hscan⟩ := find_matches_ok_inv h
  obtain ⟨ends, hlen, hchain, -, h4⟩ :=
    scan_ok_strong (registerGet known) program program 0 [] infos []
      (by simp) (by simp) hscan
  refine ⟨ends, hlen, hchain, ?_, ?_⟩
  · intro k hk he
    obtain ⟨hEnd, hlt, -, hreg⟩ := h4 k hk he
    exact ⟨hEnd, hlt, hreg⟩
  · have htrans : IsTrans Nat (fun a b => a < b) := ⟨fun x y z => Nat.lt_trans⟩
    have hp := List.chain'_iff_pairwise.mp hchain
    rw [List.pairwise_iff_get] at hp
    have hmono : ∀ (a b : Nat) (ha : a < ends.length) (hb : b < ends.length),
        a < b → ends[a] < ends[b] := by
      intro a b ha hb hab
      have h5 := hp ⟨a, ha⟩ ⟨b, hb⟩ hab
      simpa [List.get_eq_getElem] using h5
    intro k1 k2 h1 h2 hlt
    rcases Nat.lt_or_ge k1 k2 with h5 | h5
    · exact h5
    · rcases Nat.eq_or_lt_of_le h5 with rfl | h6
      · exact absurd hlt (Nat.lt_irrefl _)
      · exact absurd (Nat.lt_trans hlt (hmono k2 k1 h2 h1 h6))
          (Nat.lt_irrefl _)

theorem C2_end_encounter_order_witness :
    ∃ ends : List Nat,
      ends.length = ([(⟨1, none⟩ : BlockInfo), ⟨0, none⟩] : List BlockInfo).length ∧
      List.Chain' (fun a b => a < b) ends ∧
      (∀ (k : Nat)
        (hk : k < ([(⟨1, none⟩ : BlockInfo), ⟨0, none⟩] : List BlockInfo).length)
        (he : k < ends.length),
        nested_program[ends[k]]? = some Instruction.End ∧
        ([(⟨1, none⟩ : BlockInfo), ⟨0, none⟩] : List BlockInfo)[k].block_start_idx <
          ends[k] ∧
        ([(⟨1, none⟩ : BlockInfo), ⟨0, none⟩] : List BlockInfo)[k].registry_idx =
          registerGet []
            (blockSlice nested_program
              (([(⟨1, none⟩ : BlockInfo), ⟨0, none⟩] : List BlockInfo)[k].block_start_idx)
              ends[k])) ∧
      ∀ (k1 k2 : Nat) (h1 : k1 < ends.length) (h2 : k2 < ends.length),
        ends[k1] < ends[k2] → k1 < k2 :=
  C2_end_encounter_order [] nested_program [⟨1, none⟩, ⟨0, none⟩] (by decide)

/-- Claim C10: when several registry entries share an equal instruction
sequence, a block with that shape is reported with the greatest matching
index — the last such entry — because a later duplicate insert into the
registry map overwrites the earlier one. -/
theorem C10_last_duplicate_wins (known : List (List Instruction))
    (program : List Instruction) (infos : List BlockInfo)
    (h : find_matches known program = .ok infos) :
    ∀ info ∈ infos, ∃ e,
      program[e]? = some Instruction.End ∧ info.block_start_idx < e ∧
      info.registry_idx =
        registerGet known (blockSlice program info.block_start_idx e) ∧
      ∀ j, known[j]? = some (blockSlice program info.block_start_idx e) →
        ∃ k, info.registry_idx = some k ∧ j ≤ k ∧
          known[k]? = some (blockSlice program info.block_start_idx e) := by
  intro info hmem
  obtain ⟨-, hscan⟩ := find_matches_ok_inv h
  obtain ⟨ends, hlen, -, -, h4⟩ :=
    scan_ok_strong (registerGet known) program program 0 [] infos []
      (by simp) (by simp) hscan
  obtain ⟨⟨k, hk⟩, rfl⟩ := List.mem_iff_get.mp hmem
  have he : k < ends.length := by omega
  obtain ⟨hEnd, hlt, -, hreg⟩ := h4 k hk he
  rw [List.get_eq_getElem]
  refine ⟨ends[k], hEnd, hlt, hreg, ?_⟩
  intro j hj
  obtain ⟨k2, hk2, hjk2, hget2⟩ := registerGet_last known _ j hj
  exact ⟨k2, by rw [hreg, hk2], hjk2, hget2⟩

theorem C10_last_duplicate_wins_witness :
    ∃ e, dup_program[e]? = some Instruction.End ∧ 0 < e ∧
      (some 1 : Option Nat) =
        registerGet dup_register (blockSlice dup_program 0 e) ∧
      ∀ j, dup_register[j]? = some (blockSlice dup_program 0 e) →
        ∃ k, (some 1 : Option Nat) = some k ∧ j ≤ k ∧
          dup_register[k]? = some (blockSlice dup_program 0 e) :=
  C10_last_duplicate_wins dup_register dup_program [⟨0, some 1⟩] (by decide)
    ⟨0, some 1⟩ (by decide)

/-- Claim C3: on a non-empty program where every `End` has a matching opener
(no prefix closes more blocks than it opens) but more blocks are opened than
closed, `find_matches` consumes the whole program and fails with the single
unclosed-blocks error whose message lists the positions of the spec's
pending-block stack in open order; that list is non-empty (every still-open
block is reported), strictly increasing (the order the blocks were pushed),
and each of its positions holds a `Begin` or an `If`. -/
theorem C3_unclosed_blocks (known : List (List Instruction))
    (program : List Instruction) (hne : program ≠ [])
    (hbal : ∀ n, n ≤ program.length →
      countEnds (program.take n) ≤ countOpens (program.take n))
    (hlt : countEnds program < countOpens program) :
    find_matches known program =
      .error (.InvalidBlock (unclosedMsg (specOpenStack program 0 []).reverse)) ∧
    (specOpenStack program 0 []).reverse ≠ [] ∧
    List.Chain' (fun a b => a < b) ((specOpenStack program 0 []).reverse) ∧
    ∀ p ∈ (specOpenStack program 0 []).reverse,
      program[p]? = some Instruction.Begin ∨ program[p]? = some Instruction.If := by
  have hbal0 : ∀ n, n ≤ program.length →
      countEnds (program.take n) ≤
        ([] : List Nat).length + countOpens (program.take n) := by
    simpa using hbal
  obtain ⟨infos, hscan, -⟩ :=
    scan_ok_of_balanced (registerGet known) program program 0 [] hbal0
  have hlen := specOpenStack_length program 0 [] hbal0
  have hne2 : specOpenStack program 0 [] ≠ [] := by
    intro hnil
    rw [hnil] at hlen
    simp at hlen
    omega
  refine ⟨?_, ?_, ?_, ?_⟩
  · unfold find_matches
    rw [if_neg (by simpa [List.isEmpty_iff] using hne)]
    simp only [hscan]
    rw [if_neg (by simpa [List.isEmpty_iff] using hne2)]
  · simpa using hne2
  · have hsorted := specOpenStack_sorted program 0 [] (by simp) (by simp)
    rw [List.chain'_reverse]
    exact hsorted
  · intro p hp
    have hp2 : p ∈ specOpenStack program 0 [] := List.mem_reverse.mp hp
    exact specOpenStack_opener program program 0 [] (by simp) (by simp) p hp2

theorem C3_unclosed_blocks_witness :
    find_matches [] [Instruction.Begin] =
      .error (.InvalidBlock
        (unclosedMsg (specOpenStack [Instruction.Begin] 0 []).reverse)) ∧
    (specOpenStack [Instruction.Begin] 0 []).reverse ≠ [] ∧
    List.Chain' (fun a b => a < b)
      ((specOpenStack [Instruction.Begin] 0 []).reverse) ∧
    ∀ p ∈ (specOpenStack [Instruction.Begin] 0 []).reverse,
      ([Instruction.Begin] : List Instruction)[p]? = some Instruction.Begin ∨
        ([Instruction.Begin] : List Instruction)[p]? = some Instruction.If :=
  C3_unclosed_blocks [] [Instruction.Begin] (by decide) (by decide) (by decide)

/-- The unclosed-blocks message reported for the program `[Begin]` contains
position 0: the pending stack is exactly `[0]`. -/
theorem C3_unclosed_example :
    (specOpenStack [Instruction.Begin] 0 []).reverse = [0] ∧
    unclosedMsg [0] =
      "Next blocks weren\u0027t be closed. The start blocks positions: [0]" := by
  exact ⟨rfl, rfl⟩

/-- Claim C5: on every non-empty well-nested program (no prefix closes more
blocks than it opens, and overall as many closes as opens) `find_matches`
succeeds and returns exactly one `BlockInfo` per `End` instruction. -/
theorem C5_one_info_per_end (known : List (List Instruction))
    (program : List Instruction) (hne : program ≠ [])
    (hbal : ∀ n, n ≤ program.length →
      countEnds (program.take n) ≤ countOpens (program.take n))
    (heq : countOpens program = countEnds program) :
    ∃ infos, find_matches known program = .ok infos ∧
      infos.length = countEnds program := by
  have hbal0 : ∀ n, n ≤ program.length →
      countEnds (program.take n) ≤
        ([] : List Nat).length + countOpens (program.take n) := by
    simpa using hbal
  obtain ⟨infos, hscan, hcount⟩ :=
    scan_ok_of_balanced (registerGet known) program program 0 [] hbal0
  have hlen := specOpenStack_length program 0 [] hbal0
  have hnil : specOpenStack program 0 [] = [] := by
    have : (specOpenStack program 0 []).length = 0 := by
      simp only [List.length_nil] at hlen
      omega
    exact List.eq_nil_of_length_eq_zero this
  refine ⟨infos, ?_, hcount⟩
  unfold find_matches
  rw [if_neg (by simpa [List.isEmpty_iff] using hne)]
  simp only [hscan, hnil]
  rfl

theorem C5_one_info_per_end_witness :
    ∃ infos, find_matches [] [Instruction.Begin, Instruction.End] = .ok infos ∧
      infos.length = countEnds [Instruction.Begin, Instruction.End] :=
  C5_one_info_per_end [] [Instruction.Begin, Instruction.End]
    (by decide) (by decide) (by decide)

/-- When the instructions before an `End` exactly exhaust the open blocks
(counting those already on `stack`), the scan reaches that `End` with an
empty stack, stops there with the unopened-close error naming its position,
and consumes nothing further (the instructions after it are arbitrary). -/
lemma scan_err_of_underflow (register : List Instruction → Option Nat)
    (program : List Instruction) :
    ∀ (pre rest2 : List Instruction) (i : Nat) (stack : List Nat),
      (∀ n, n ≤ pre.length →
        countEnds (pre.take n) ≤ stack.length + countOpens (pre.take n)) →
      stack.length + countOpens pre ≤ countEnds pre →
      findMatchesScan register program i (pre ++ Instruction.End :: rest2) stack =
        (.error (.InvalidBlock (unopenedMsg (i + pre.length))), []) := by
  intro pre
  induction pre with
  | nil =>
    intro rest2 i stack _ h2
    have hstack : stack = [] := by
      have h3 : stack.length = 0 := by
        simpa [countOpens, countEnds] using h2
      exact List.eq_nil_of_length_eq_zero h3
    subst hstack
    simp [findMatchesScan]
  | cons ins pre ih =>
    intro rest2 i stack h1 h2
    have harith : (i + 1) + pre.length = i + (pre.length + 1) := by omega
    cases ins with
    | Push v =>
      have h1' : ∀ n, n ≤ pre.length →
          countEnds (pre.take n) ≤ stack.length + countOpens (pre.take n) := by
        intro n hn
        have h3 := h1 (n + 1) (by simp [List.length_cons]; omega)
        simpa [List.take_succ_cons, countEnds, countOpens, List.countP_cons]
          using h3
      have h2' : stack.length + countOpens pre ≤ countEnds pre := by
        simp only [countEnds, countOpens, List.countP_cons, if_true, if_false,
          Bool.false_eq_true] at h2 ⊢
        omega
      have h4 := ih rest2 (i + 1) stack h1' h2'
      simp only [List.cons_append, findMatchesScan, List.length_cons]
      rw [← harith]
      exact h4
    | Or =>
      have h1' : ∀ n, n ≤ pre.length →
          countEnds (pre.take n) ≤ stack.length + countOpens (pre.take n) := by
        intro n hn
        have h3 := h1 (n + 1) (by simp [List.length_cons]; omega)
        simpa [List.take_succ_cons, countEnds, countOpens, List.countP_cons]
          using h3
      have h2' : stack.length + countOpens pre ≤ countEnds pre := by
        simp only [countEnds, countOpens, List.countP_cons, if_true, if_false,
          Bool.false_eq_true] at h2 ⊢
        omega
      have h4 := ih rest2 (i + 1) stack h1' h2'
      simp only [List.cons_append, findMatchesScan, List.length_cons]
      rw [← harith]
      exact h4
    | And =>
      have h1' : ∀ n, n ≤ pre.length →
          countEnds (pre.take n) ≤ stack.length + countOpens (pre.take n) := by
        intro n hn
        have h3 := h1 (n + 1) (by simp [List.length_cons]; omega)
        simpa [List.take_succ_cons, countEnds, countOpens, List.countP_cons]
          using h3
      have h2' : stack.length + countOpens pre ≤ countEnds pre := by
        simp only [countEnds, countOpens, List.countP_cons, if_true, if_false,
          Bool.false_eq_true] at h2 ⊢
        omega
      have h4 := ih rest2 (i + 1) stack h1' h2'
      simp only [List.cons_append, findMatchesScan, List.length_cons]
      rw [← harith]
      exact h4
    | Not =>
      have h1' : ∀ n, n ≤ pre.length →
          countEnds (pre.take n) ≤ stack.length + countOpens (pre.take n) := by
        intro n hn
        have h3 := h1 (n + 1) (by simp [List.length_cons]; omega)
        simpa [List.take_succ_cons, countEnds, countOpens, List.countP_cons]
          using h3
      have h2' : stack.length + countOpens pre ≤ countEnds pre := by
        simp only [countEnds, countOpens, List.countP_cons, if_true, if_false,
          Bool.false_eq_true] at h2 ⊢
        omega
      have h4 := ih rest2 (i + 1) stack h1' h2'
      simp only [List.cons_append, findMatchesScan, List.length_cons]
      rw [← harith]
      exact h4
    | Begin =>
      have h1' : ∀ n, n ≤ pre.length →
          countEnds (pre.take n) ≤ (i :: stack).length + countOpens (pre.take n) := by
        intro n hn
        have h3 := h1 (n + 1) (by simp [List.length_cons]; omega)
        simp only [List.take_succ_cons, countEnds, countOpens, List.countP_cons,
          List.length_cons, if_true, if_false, Bool.false_eq_true] at h3 ⊢
        omega
      have h2' : (i :: stack).length + countOpens pre ≤ countEnds pre := by
        simp only [countEnds, countOpens, List.countP_cons, List.length_cons,
          if_true, if_false, Bool.false_eq_true] at h2 ⊢
        omega
      have h4 := ih rest2 (i + 1) (i :: stack) h1' h2'
      simp only [List.cons_append, findMatchesScan, List.length_cons]
      rw [← harith]
      exact h4
    | If =>
      have h1' : ∀ n, n ≤ pre.length →
          countEnds (pre.take n) ≤ (i :: stack).length + countOpens (pre.take n) := by
        intro n hn
        have h3 := h1 (n + 1) (by simp [List.length_cons]; omega)
        simp only [List.take_succ_cons, countEnds, countOpens, List.countP_cons,
          List.length_cons, if_true, if_false, Bool.false_eq_true] at h3 ⊢
        omega
      have h2' : (i :: stack).length + countOpens pre ≤ countEnds pre := by
        simp only [countEnds, countOpens, List.countP_cons, List.length_cons,
          if_true, if_false, Bool.false_eq_true] at h2 ⊢
        omega
      have h4 := ih rest2 (i + 1) (i :: stack) h1' h2'
      simp only [List.cons_append, findMatchesScan, List.length_cons]
      rw [← harith]
      exact h4
    | End =>
      have hpos : 1 ≤ stack.length := by
        have h3 := h1 1 (by simp [List.length_cons])
        simpa [countEnds, countOpens, List.countP_cons] using h3
      cases stack with
      | nil => simp at hpos
      | cons s stack2 =>
        have h1' : ∀ n, n ≤ pre.length →
            countEnds (pre.take n) ≤ stack2.length + countOpens (pre.take n) := by
          intro n hn
          have h3 := h1 (n + 1) (by simp [List.length_cons]; omega)
          simp only [List.take_succ_cons, countEnds, countOpens,
            List.countP_cons, List.length_cons, if_true, if_false,
            Bool.false_eq_true] at h3 ⊢
          omega
        have h2' : stack2.length + countOpens pre ≤ countEnds pre := by
          simp only [countEnds, countOpens, List.countP_cons, List.length_cons,
            if_true, if_false, Bool.false_eq_true] at h2 ⊢
          omega
        have h4 := ih rest2 (i + 1) stack2 h1' h2'
        simp only [List.cons_append, findMatchesScan, List.append_eq, h4,
          List.length_cons]
        rw [← harith]

/-- Claim C4: when the instruction at index `i` is an `End` and the prefix
before it is balanced but leaves no block open (so `i` is the first `End`
reached with an empty stack), `find_matches` fails with the unopened-close
error naming position `i`; moreover the instructions after index `i` are
irrelevant — any continuation after that `End` yields the same error, so the
scan stops there and processes no later instruction. -/
theorem C4_unopened_close (known : List (List Instruction))
    (program : List Instruction) (i : Nat)
    (hEnd : program[i]? = some Instruction.End)
    (hpre : ∀ n, n ≤ i →
      countEnds (program.take n) ≤ countOpens (program.take n))
    (hstk : countOpens (program.take i) ≤ countEnds (program.take i)) :
    find_matches known program = .error (.InvalidBlock (unopenedMsg i)) ∧
    ∀ tail2 : List Instruction,
      find_matches known (program.take i ++ Instruction.End :: tail2) =
        .error (.InvalidBlock (unopenedMsg i)) := by
  obtain ⟨hi, hival⟩ := List.getElem?_eq_some.mp hEnd
  have hlen_take : (program.take i).length = i := by
    rw [List.length_take]; omega
  have hgen : ∀ tail2 : List Instruction,
      find_matches known (program.take i ++ Instruction.End :: tail2) =
        .error (.InvalidBlock (unopenedMsg i)) := by
    intro tail2
    have hb1 : ∀ n, n ≤ (program.take i).length →
        countEnds ((program.take i).take n) ≤
          ([] : List Nat).length + countOpens ((program.take i).take n) := by
      intro n hn
      rw [hlen_take] at hn
      rw [List.take_take, Nat.min_eq_left hn]
      simpa using hpre n hn
    have hb2 : ([] : List Nat).length + countOpens (program.take i) ≤
        countEnds (program.take i) := by simpa using hstk
    have hscan := scan_err_of_underflow (registerGet known)
      (program.take i ++ Instruction.End :: tail2)
      (program.take i) tail2 0 [] hb1 hb2
    unfold find_matches
    rw [if_neg (by simp [List.isEmpty_iff])]
    simp only [hscan]
    simp [hlen_take]
  exact ⟨by
    have hsplit : program =
        program.take i ++ Instruction.End :: program.drop (i + 1) := by
      conv_lhs => rw [← List.take_append_drop i program]
      congr 1
      rw [List.drop_eq_getElem_cons hi, hival]
    rw [hsplit]
    exact hgen (program.drop (i + 1)), hgen⟩

theorem C4_unopened_close_witness :
    find_matches [] [Instruction.Or, Instruction.End] =
      .error (.InvalidBlock (unopenedMsg 1)) ∧
    ∀ tail2 : List Instruction,
      find_matches []
          (([Instruction.Or, Instruction.End] : List Instruction).take 1 ++
            Instruction.End :: tail2) =
        .error (.InvalidBlock (unopenedMsg 1)) :=
  C4_unopened_close [] [Instruction.Or, Instruction.End] 1
    (by decide) (by decide) (by decide)

/-- Claim C9: `find_matches` returns the empty-program error exactly on the
empty program; a non-empty program with no `Begin`, `If` or `End` at all is
not an error — it succeeds with the empty result sequence. -/
theorem C9_noOneBlockFound_iff_empty (known : List (List Instruction))
    (program : List Instruction) :
    (find_matches known program = .error .NoOneBlockFound ↔ program = []) ∧
    (program ≠ [] →
      (∀ ins ∈ program, ins ≠ Instruction.Begin ∧ ins ≠ Instruction.If ∧
        ins ≠ Instruction.End) →
      find_matches known program = .ok []) := by
  constructor
  · constructor
    · intro h
      by_contra hne
      unfold find_matches at h
      rw [if_neg (by simpa [List.isEmpty_iff] using hne)] at h
      rcases hr : findMatchesScan (registerGet known) program 0 program []
        with ⟨r, st⟩
      rw [hr] at h
      by_cases hst : st.isEmpty
      · rw [if_pos hst] at h
        simp only at h
        cases r with
        | ok infos => exact absurd h (by simp)
        | error e =>
          obtain ⟨msg, hmsg⟩ :=
            scan_error_isInvalid (registerGet known) program program 0 [] e st hr
          have he : e = MatchError.NoOneBlockFound := by injection h
          rw [he] at hmsg
          exact MatchError.noConfusion hmsg
      · rw [if_neg hst] at h
        simp only at h
        have h2 : MatchError.InvalidBlock (unclosedMsg st.reverse) =
            MatchError.NoOneBlockFound := by injection h
        exact MatchError.noConfusion h2
    · rintro rfl
      rfl
  · intro hne hall
    unfold find_matches
    rw [if_neg (by simpa [List.isEmpty_iff] using hne)]
    have hscan := scan_skip_trivial (registerGet known) program program 0 [] hall
    simp only [hscan]
    rfl

theorem C9_noOneBlockFound_iff_empty_witness :
    find_matches [] [Instruction.Or, Instruction.Push 5] = .ok [] :=
  (C9_noOneBlockFound_iff_empty [] [Instruction.Or, Instruction.Push 5]).2
    (by decide) (by decide)

/-- Claim C6: for every registry, `find_matches` on the empty program fails
with the empty-program error; the guard precedes the scan and the registry,
so the result does not depend on the registry at all. -/
theorem C6_empty_program (known known' : List (List Instruction)) :
    find_matches known [] = .error .NoOneBlockFound ∧
    find_matches known [] = find_matches known' [] := by
  exact ⟨rfl, rfl⟩

/-- Claim C8: on the test registry and the `correct_program` test program,
`find_matches` succeeds with exactly the four expected `BlockInfo` values in
End-encounter order — starts 1 (matched to registry entry 2, the shape
`[If, Push 2, Push 3, End]`), 6 (matched to entry 3, `[If, End]`), 5 (not
matched) and 0 (not matched). -/
theorem C8_end_to_end :
    find_matches default_register correct_program =
      .ok [⟨1, some 2⟩, ⟨6, some 3⟩, ⟨5, none⟩, ⟨0, none⟩] ∧
    default_register.get? 2 = some [.If, .Push 2, .Push 3, .End] ∧
    default_register.get? 3 = some [.If, .End] := by
  exact ⟨rfl, rfl, rfl⟩

end BlockMatcher
